import Mathlib

/-!
A verification development for the `vsh` repository: a shallow embedding of

* the in-memory virtual filesystem (`fs/fs_mem.go`),
* the PATH-based command lookup (`handler.go`), and
* the runner's outcome reconciliation, reset seeding and subshell
  environment forking (`runner.go`),

together with theorems settling the frozen specification claims.

Conventions used throughout the embedding:

* Go byte strings are Lean `String`s; the Go standard library string and
  path helpers used by the repository (`strings.Split`, `strings.TrimPrefix`,
  `path.Clean`, `path.Join`, `path.IsAbs`) are re-implemented below over
  `List Char` so that every definition is executable by the kernel.
* Go maps (`map[string]*dir`, `map[string]*file`) are association lists with
  `List.lookup` semantics; `delete` removes every entry with the key and a
  map store replaces the entry in place, which agrees with Go maps on all
  states (a Go map never holds a duplicate key).
* In-place mutating filesystem methods become functions returning the new
  tree paired with `Option FsErr` (`none` = `nil` error), mirroring the
  branch structure of the Go code so that an error branch returns exactly
  the tree the Go code leaves behind.
* `time.Now()` modification timestamps carry no information that any claim
  (or any deterministic test) can observe, and real time has no shallow
  embedding; the `modified` field of `fileinfo` is therefore omitted.
  Locks (`sync.RWMutex`) are likewise omitted: the claims are about the
  sequential semantics.
-/

namespace Vsh

/-! ### Go string primitives -/

/-- Split a character list at every occurrence of `sep`.
`strings.Split(s, sep)` for a one-character separator: the result always has
at least one (possibly empty) group. -/
def chSplit (sep : Char) : List Char → List (List Char)
  | [] => [[]]
  | c :: rest =>
    let r := chSplit sep rest
    if c = sep then [] :: r
    else
      match r with
      | [] => [[c]]
      | g :: gs => (c :: g) :: gs

/-- Go `strings.Split(s, sep)` for a single-character separator. -/
def goSplit (s : String) (sep : Char) : List String :=
  (chSplit sep s.toList).map (fun l => String.mk l)

/-- Interleave `sep` between the groups (inverse of `chSplit`). -/
def chIntercalate (sep : Char) : List (List Char) → List Char
  | [] => []
  | [g] => g
  | g :: gs => g ++ sep :: chIntercalate sep gs

/-- Go `strings.Join(l, sep)` for a single-character separator. -/
def goJoinList (sep : Char) (l : List String) : String :=
  String.mk (chIntercalate sep (l.map String.toList))

/-- Whether `pre` is an initial segment of `s`. -/
def chLeads : List Char → List Char → Bool
  | [], _ => true
  | _ :: _, [] => false
  | p :: ps, c :: cs => p = c && chLeads ps cs

/-- Go `strings.HasPrefix(s, pre)`. -/
def goStartsWith (s pre : String) : Bool :=
  chLeads pre.toList s.toList

/-- Go `strings.TrimPrefix(s, pre)`: drop `pre` from the front of `s` when it
is there, otherwise return `s` unchanged. -/
def goTrimStart (s pre : String) : String :=
  if goStartsWith s pre then String.mk (s.toList.drop pre.toList.length) else s

/-- Go string concatenation `a + b`. -/
def goAppend (a b : String) : String := String.mk (a.toList ++ b.toList)

/-! ### Go `path` package -/

/-- Go `path.IsAbs(p)`: the path starts with a slash. -/
def goIsAbs (p : String) : Bool := goStartsWith p "/"

/-- Go `path.Clean(p)` (lexical cleaning, Plan 9 rules): collapse multiple
slashes, drop `.` components, resolve `..` against a preceding component,
drop `..` at an absolute root, and return `.` for an empty result. -/
def goPathClean (p : String) : String :=
  if p = "" then "."
  else
    let rooted := goIsAbs p
    let comps := (goSplit p '/').filter (fun c => !(c == "" || c == "."))
    let outRev := comps.foldl
      (fun acc c =>
        if c = ".." then
          match acc with
          | [] => if rooted then [] else [".."]
          | a :: as => if a = ".." then c :: acc else as
        else c :: acc)
      ([] : List String)
    let s := goJoinList '/' outRev.reverse
    if rooted then goAppend "/" s
    else if s = "" then "." else s

/-- Go `path.Join(a, b)`: drop empty elements, join with a slash, `Clean`
the result; if every element is empty the result is the empty string. -/
def goPathJoin (a b : String) : String :=
  let elems := [a, b].filter (fun s => !(s == ""))
  if elems.isEmpty then "" else goPathClean (goJoinList '/' elems)

/-- `cleanse` from `fs/fs_mem.go`: `path.Clean`, then trim a leading `./`,
then a leading `/`, and map the bare `.` to the empty string.  Every name
entering the in-memory tree goes through this first. -/
def cleanse (p : String) : String :=
  let p := goPathClean p
  let p := goTrimStart p "./"
  let p := goTrimStart p "/"
  if p = "." then "" else p

/-- The slash-separated components of a cleansed name, with the empty name
denoting the empty component list (the Go code tests `name == ""` before
splitting, and `strings.Split("", "/")` yields `[""]` where it does not). -/
def toParts (n : String) : List String :=
  if n = "" then [] else goSplit n '/'

/-! ### In-memory filesystem: data model (`fs/fs_mem.go`) -/

/-- The bit `fs.ModeDir` occupies in a Go `fs.FileMode` (bit 31). -/
def modeDirBit : Nat := 31

/-- Go `fs.ModeDir` as a number. -/
def modeDir : Nat := 2 ^ modeDirBit

/-- `fileinfo` from `fs_mem.go` minus the `modified` timestamp and the
always-`nil` `sys` field (see the header note). -/
structure FInfo where
  name : String
  size : Nat
  mode : Nat
deriving Repr, DecidableEq

/-- Whether a mode has the directory bit, Go `m.IsDir()`. -/
def FInfo.isDir (i : FInfo) : Bool := i.mode.testBit modeDirBit

/-- A `file` node: its info, resident content bytes, whether an opener is
installed (`opener != nil`), and whether the reader that opener produces
also implements `io.Writer` (write-through sessions).  Every file
`WriteFile` creates has a writable `lazyAccess` opener; a file
`writeLazyFile` installs for `Snapshot` carries the source's reader, which
need not be writable. -/
structure MFile where
  info : FInfo
  content : List Nat
  hasOpener : Bool
  openerWritable : Bool
deriving Repr, DecidableEq

/-- A `dir` node: its info and the two child maps, as association lists. -/
inductive MDir where
  | mk (info : FInfo) (dirs : List (String × MDir)) (files : List (String × MFile))

/-- The directory's own `fileinfo`. -/
def MDir.info : MDir → FInfo
  | .mk i _ _ => i

/-- The child-directory map. -/
def MDir.dirs : MDir → List (String × MDir)
  | .mk _ ds _ => ds

/-- The child-file map. -/
def MDir.files : MDir → List (String × MFile)
  | .mk _ _ fs => fs

/-- Go `delete(m, k)` on an association-list map: drop every entry with the
key (a Go map holds at most one). -/
def delK {α : Type} (l : List (String × α)) (k : String) : List (String × α) :=
  l.filter (fun kv => !(kv.1 == k))

/-- Replace the first entry carrying the key (a Go map holds at most one). -/
def replaceK {α : Type} (l : List (String × α)) (k : String) (v : α) : List (String × α) :=
  match l with
  | [] => []
  | kv :: rest => if kv.1 == k then (k, v) :: rest else kv :: replaceK rest k v

/-- Go `m[k] = v` on an association-list map: replace the entry in place
when the key is present, otherwise append it. -/
def setK {α : Type} (l : List (String × α)) (k : String) (v : α) : List (String × α) :=
  if (l.lookup k).isSome then replaceK l k v
  else l ++ [(k, v)]

/-- The failure values of the in-memory filesystem: the `io/fs` sentinel
errors, a `*fs.PathError` wrapping one with an operation and path, and a
plain `fmt.Errorf` message. -/
inductive FsErr where
  | notExist
  | exist
  | invalid
  | pathError (op : String) (path : String) (e : FsErr)
  | msg (s : String)
deriving Repr, DecidableEq

/-- The fresh root of `newMemFS()`: mode `0777 | fs.ModeDir`, name `.`,
size `0x100`, no children. -/
def newMemFS : MDir := .mk ⟨".", 0x100, 0o777 ||| modeDir⟩ [] []

/-! ### In-memory filesystem: `dir` methods

Paths below a `dir` method are carried in split form (`toParts` of the Go
name string); the Go code re-splits the joined tail at every level, which
round-trips because components of a split never contain the separator. -/

/-- `dir.getDir` from `fs_mem.go`: the empty name denotes the directory
itself, otherwise descend through the child-directory map. -/
def MDir.getDir (d : MDir) : List String → Option MDir
  | [] => some d
  | p :: rest =>
    match d.dirs.lookup p with
    | some sub => sub.getDir rest
    | none => none

/-- `dir.getFile` from `fs_mem.go`: a single component is looked up in the
file map, a longer path descends through `getDir` first.  (For the empty
name the Go code looks up the empty string in the file map.) -/
def MDir.getFile (d : MDir) : List String → Option MFile
  | [] => d.files.lookup ""
  | p :: rest =>
    match rest with
    | [] => d.files.lookup p
    | _ :: _ =>
      match d.dirs.lookup p with
      | some sub => sub.getFile rest
      | none => none

/-- `dir.removePath` from `fs_mem.go`.  A final component that names a file
is deleted outright; a final component that names a directory is deleted
when the directory is empty or `recursive` is set (the Go code additionally
clears out the detached subtree's own maps first, which is unobservable once
the entry is gone) and answers `fs.ErrInvalid` otherwise; a missing entry
answers `fs.ErrNotExist`.  The empty path never reaches this method: both
public entry points return early on it. -/
def MDir.removePath (d : MDir) (parts : List String) (recursive : Bool) :
    MDir × Option FsErr :=
  match parts with
  | [] => (d, some .notExist)
  | p :: rest =>
    match rest with
    | [] =>
      if (d.files.lookup p).isSome then
        (.mk d.info d.dirs (delK d.files p), none)
      else
        match d.dirs.lookup p with
        | some sub =>
          if sub.dirs.isEmpty && sub.files.isEmpty then
            (.mk d.info (delK d.dirs p) d.files, none)
          else if recursive then
            (.mk d.info (delK d.dirs p) d.files, none)
          else (d, some .invalid)
        | none => (d, some .notExist)
    | _ :: _ =>
      match d.dirs.lookup p with
      | some sub =>
        let r := sub.removePath rest recursive
        (.mk d.info (setK d.dirs p r.1) d.files, r.2)
      | none => (d, some .notExist)

/-- Lexicographic character-wise string comparison (Go compares strings
byte-wise, which agrees with character-wise comparison on UTF-8):
`chLe as bs` says `as ≤ bs`. -/
def chLe : List Char → List Char → Bool
  | [], _ => true
  | _ :: _, [] => false
  | a :: as, b :: bs => if a = b then chLe as bs else decide (a < b)

/-- The comparison `sort.Slice` uses in `dir.ReadDir`: ascending by name. -/
def entLe (a b : FInfo) : Bool := chLe a.name.toList b.name.toList

/-- Insert an element into a sorted list at its place. -/
def insertSorted (le : FInfo → FInfo → Bool) (a : FInfo) : List FInfo → List FInfo
  | [] => [a]
  | b :: rest => if le a b then a :: b :: rest else b :: insertSorted le a rest

/-- Insertion sort.  `sort.Slice` in `dir.ReadDir` sorts with an
unspecified, unstable algorithm; any sorted permutation of the input is a
faithful model of its contract, and insertion sort is the one that the
kernel can evaluate. -/
def sortEnts (le : FInfo → FInfo → Bool) : List FInfo → List FInfo
  | [] => []
  | a :: rest => insertSorted le a (sortEnts le rest)

/-- The sorted entry list of one directory: the file infos, then the
subdirectory infos, sorted ascending by name. -/
def MDir.entries (d : MDir) : List FInfo :=
  sortEnts entLe (d.files.map (fun kv => kv.2.info) ++ d.dirs.map (fun kv => kv.2.info))

/-- `dir.ReadDir` from `fs_mem.go`: the empty name lists the directory
itself, otherwise descend through the child-directory map, answering the
bare `fs.ErrNotExist` when a component is missing. -/
def MDir.readDir (d : MDir) : List String → Except FsErr (List FInfo)
  | [] => .ok d.entries
  | p :: rest =>
    match d.dirs.lookup p with
    | some sub => sub.readDir rest
    | none => .error .notExist

/-- `dir.MkdirAll` from `fs_mem.go`.  The empty path is a no-op; a file
occupying the leading component answers the bare `fs.ErrExist`; otherwise
the component directory is created when absent (mode forced to carry the
directory bit) and the remainder recurses into it. -/
def MDir.mkdirAll (d : MDir) (parts : List String) (perm : Nat) :
    MDir × Option FsErr :=
  match parts with
  | [] => (d, none)
  | p :: rest =>
    if (d.files.lookup p).isSome then (d, some .exist)
    else
      let perm' := if perm.testBit modeDirBit then perm else perm ||| modeDir
      let sub := (d.dirs.lookup p).getD (.mk ⟨p, 0x100, perm'⟩ [] [])
      let dirs0 :=
        match d.dirs.lookup p with
        | some _ => d.dirs
        | none => d.dirs ++ [(p, sub)]
      match rest with
      | [] => (.mk d.info dirs0 d.files, none)
      | _ :: _ =>
        let r := sub.mkdirAll rest perm'
        (.mk d.info (setK dirs0 p r.1) d.files, r.2)

/-- Whether a file occupies a required segment of a path: some prefix of
the components resolves through existing directories to an existing file.
`dir.MkdirAll` fails (with `fs.ErrExist`) exactly on such paths. -/
def fileSeg (d : MDir) : List String → Bool
  | [] => false
  | p :: rest =>
    (d.files.lookup p).isSome ||
      (match d.dirs.lookup p with
       | some sub => fileSeg sub rest
       | none => false)

/-- `memFS.Stat`: a file wins over a directory of the same name; a miss is
a `*fs.PathError` with operation `stat` and the cleansed path. -/
def memStat (root : MDir) (name : String) : Except FsErr FInfo :=
  let n := cleanse name
  match root.getFile (toParts n) with
  | some f => .ok f.info
  | none =>
    match root.getDir (toParts n) with
    | some d => .ok d.info
    | none => .error (.pathError "stat" n .notExist)

/-- `memFS.ReadDir` (through `dir.ReadDir`). -/
def memReadDir (root : MDir) (name : String) : Except FsErr (List FInfo) :=
  root.readDir (toParts (cleanse name))

/-- `memFS.MkdirAll` (through `dir.MkdirAll`). -/
def memMkdirAll (root : MDir) (name : String) (perm : Nat) : MDir × Option FsErr :=
  root.mkdirAll (toParts (cleanse name)) perm

/-- `memFS.Remove` (through `dir.Remove`): the empty or `.` name is a
silent no-op, otherwise a non-recursive `removePath`. -/
def memRemove (root : MDir) (name : String) : MDir × Option FsErr :=
  let n := cleanse name
  if n = "" || n = "." then (root, none)
  else root.removePath (toParts n) false

/-- `memFS.RemoveAll` (through `dir.RemoveAll`): the empty or `.` name is a
silent no-op, otherwise a recursive `removePath`. -/
def memRemoveAll (root : MDir) (name : String) : MDir × Option FsErr :=
  let n := cleanse name
  if n = "" || n = "." then (root, none)
  else root.removePath (toParts n) true

/-! ### Command dispatcher: PATH lookup (`handler.go`) -/

/-- What `os.Stat` reports about a host path: directory flag and permission
bits of the mode. -/
structure HMeta where
  isDir : Bool
  perm : Nat
deriving Repr, DecidableEq

/-- The host operating system's filesystem as seen by `os.Stat`: `none` is
a stat error (such as the file not existing). -/
def HostFS : Type := String → Option HMeta

/-- The errors `checkStat` and `lookPathDir` produce. -/
inductive LookErr where
  | isADirectory
  | permissionDenied
  | statErr
  | notFoundInPath (file : String)
deriving Repr, DecidableEq

/-- The path `checkStat` actually stats: the candidate itself when absolute,
otherwise `path.Join(dir, file)`. -/
def resolveCand (dir file : String) : String :=
  if goIsAbs file then file else goPathJoin dir file

/-- `checkStat` from `handler.go`: resolve the candidate against `dir`,
`os.Stat` it on the host, and reject directories and entries without any
execute-permission bit (`m&0o111 == 0`). -/
def checkStat (host : HostFS) (dir file : String) : Except LookErr String :=
  let file := resolveCand dir file
  match host file with
  | none => .error .statErr
  | some m =>
    if m.isDir then .error .isADirectory
    else if m.perm &&& 0o111 == 0 then .error .permissionDenied
    else .ok file

/-- The candidate a PATH entry contributes in `lookPathDir`: `./name` for an
empty or `.` entry, otherwise `path.Join(entry, name)`. -/
def candidatePath (elem file : String) : String :=
  if elem = "" || elem = "." then goAppend "./" file else goPathJoin elem file

/-- The loop body of `lookPathDir`: the first candidate `checkStat` accepts
wins; when every entry has been tried the lookup fails with the
"executable file not found in $PATH" error naming the requested command. -/
def lookLoop (host : HostFS) (cwd file : String) : List String → Except LookErr String
  | [] => .error (.notFoundInPath file)
  | elem :: rest =>
    match checkStat host cwd (candidatePath elem file) with
    | .ok f => .ok f
    | .error _ => lookLoop host cwd file rest

/-- The PATH entry list of `lookPathDir`: `PATH` split on `:`, degenerating
to one empty entry for an empty list (dead in Go, where a split is never
empty, but kept from the source). -/
def pathListOf (pathVar : String) : List String :=
  let pathList := goSplit pathVar ':'
  if pathList = [] then [""] else pathList

/-- `lookPathDir` from `handler.go`, with `pathVar` standing for
`env.Get("PATH").String()`. -/
def lookPathDir (host : HostFS) (cwd pathVar file : String) : Except LookErr String :=
  lookLoop host cwd file (pathListOf pathVar)

/-- The two filesystems a running interpreter can see: the real host
filesystem reached through `os.Stat`, and the Runner's pluggable virtual
filesystem (`Runner.FileSystem`). -/
structure World where
  host : HostFS
  vfs : MDir

/-- PATH lookup as performed in a world: `checkStat` stats through
`os.Stat`, so only the host component is consulted. -/
def lookPathDirW (w : World) (cwd pathVar file : String) : Except LookErr String :=
  lookPathDir w.host cwd pathVar file

/-! ### Environment overlay

`Runner.writeEnv` is an `overlayEnviron`: a mutable local layer over a
parent environment.  Its implementation file is not part of the sources
given; the operational model below is Modelled from the spec: section 4.2
("`Get(name)` checks the local layer, then each parent layer in order,
finally the base; `Set(name, value)` writes only the local layer") and the
overlay description in section 3 ("Writes always land in the local layer;
ancestors are never mutated").  Layers live in a store indexed by numeric
identity so that sharing between a runner and its subshell is explicit. -/

/-- A shell variable as the interpreter sees it (`expand.Variable`,
restricted to the fields the claims touch). -/
structure Variable where
  set : Bool
  readOnly : Bool
  str : String
deriving Repr, DecidableEq

/-- Modelled from the spec: the store of overlay layers.  `layers` maps a
layer identity to its local bindings; identities below `nextId` are the
ones ever handed out. -/
structure EnvWorld where
  layers : Nat → List (String × Variable)
  nextId : Nat

/-- Modelled from the spec: an overlay environment value — the chain of
layer identities it reads through (innermost first) over an immutable base
environment. -/
structure OEnv where
  chain : List Nat
  base : String → Option Variable

/-- Modelled from the spec: `overlayEnviron.Get` — the first layer of the
chain holding the name wins, otherwise the base answers. -/
def envGet (w : EnvWorld) (e : OEnv) (k : String) : Option Variable :=
  match e.chain.findSome? (fun id => (w.layers id).lookup k) with
  | some v => some v
  | none => e.base k

/-- `expand.Variable.IsSet` on a `Get` result. -/
def isSetVar (o : Option Variable) : Bool :=
  match o with
  | some v => v.set
  | none => false

/-- Modelled from the spec: `overlayEnviron.Set` — the write lands in the
local (innermost) layer only. -/
def envSet (w : EnvWorld) (e : OEnv) (k : String) (v : Variable) : EnvWorld :=
  match e.chain with
  | [] => w
  | id :: _ =>
    { w with layers := fun j => if j = id then setK (w.layers id) k v else w.layers j }

/-- `newOverlayEnviron(parent, background)` as allocation of a fresh empty
layer chained over the parent (the `background` flag only adds a write
guard for concurrent use and does not change visibility). -/
def newOverlayEnviron (w : EnvWorld) (parent : OEnv) : EnvWorld × OEnv :=
  ({ layers := fun j => if j = w.nextId then [] else w.layers j, nextId := w.nextId + 1 },
   { chain := w.nextId :: parent.chain, base := parent.base })

/-- Every layer of the chain has been allocated by the store. -/
def chainBelow (w : EnvWorld) (e : OEnv) : Prop :=
  ∀ id ∈ e.chain, id < w.nextId

/-- `Runner.subshell`, restricted to its environment effect (line
`r2.writeEnv = newOverlayEnviron(r.writeEnv, background)`): the child gets a
fresh overlay layer over the parent's environment. -/
def subshellEnv (w : EnvWorld) (r : OEnv) : EnvWorld × OEnv :=
  newOverlayEnviron w r

/-- The variable-seeding tail of `Runner.Reset`: a fresh overlay over the
base environment `r.Env`; `HOME`, `UID`, `EUID` and `GID` are seeded only
when not already set, while `PWD`, `IFS` and `OPTIND` are written
unconditionally.  (`setVarString`/`setVar` are plain overlay writes here —
Modelled from the spec: section 4.2 — since their file is not among the
sources.) -/
def resetSeedEnv (w : EnvWorld) (base : String → Option Variable) (dir : String) :
    EnvWorld × OEnv :=
  let we := newOverlayEnviron w { chain := [], base := base }
  let w := we.1
  let e := we.2
  let w := if isSetVar (envGet w e "HOME") then w else envSet w e "HOME" ⟨true, false, "/"⟩
  let w := if isSetVar (envGet w e "UID") then w else envSet w e "UID" ⟨true, true, "0"⟩
  let w := if isSetVar (envGet w e "EUID") then w else envSet w e "EUID" ⟨true, true, "0"⟩
  let w := if isSetVar (envGet w e "GID") then w else envSet w e "GID" ⟨true, true, "0"⟩
  let w := envSet w e "PWD" ⟨true, false, dir⟩
  let w := envSet w e "IFS" ⟨true, false, " \t\n"⟩
  let w := envSet w e "OPTIND" ⟨true, false, "1"⟩
  (w, e)

/-! ### Runner: `Run` outcome reconciliation (`runner.go`) -/

/-- A Go `error` value as `Run` can return one: the typed `ExitStatus`
(a `uint8`) or any other error, identified by a tag. -/
inductive GoErr where
  | exitStatus (code : Nat)
  | err (tag : String)
deriving Repr, DecidableEq

/-- The slice of `Runner` state that `Run`'s reconciliation reads and
writes.  `exit` is a Go `int`. -/
structure RState where
  didReset : Bool
  fatalErr : Option GoErr
  nonFatalHandlerErr : Option GoErr
  returning : Bool
  exiting : Bool
  filename : String
  exit : Int
  lastExit : Int
  vars : String → Option Variable
  envW : EnvWorld
  env : OEnv

/-- `maps.Insert(r.Vars, r.writeEnv.Each)`: every variable visible through
the overlay chain (or its base) overwrites the snapshot entry of its name;
names the overlay does not know keep their snapshot value. -/
def mergedVars (s : RState) : String → Option Variable :=
  fun k =>
    match envGet s.envW s.env k with
    | some v => some v
    | none => s.vars k

/-- The transient-flag clearing at the top of `Run` (`r.fatalErr = nil`,
`r.returning`, `r.exiting`, `r.filename`). -/
def clearTransient (s : RState) : RState :=
  { s with fatalErr := none, returning := false, exiting := false, filename := "" }

/-- The reconciliation tail of `Run`: merge the overlay into the visible
variable snapshot, then return the first of a fatal error, a non-fatal
handler error, the exit status (as `ExitStatus(r.exit)`, a `uint8`
conversion of the Go `int`), or success. -/
def runFinish (s : RState) : RState × Option GoErr :=
  let s := { s with vars := mergedVars s }
  match s.fatalErr with
  | some e => (s, some e)
  | none =>
    match s.nonFatalHandlerErr with
    | some e => (s, some e)
    | none =>
      if s.exit ≠ 0 then (s, some (.exitStatus (s.exit.emod 256).toNat)) else (s, none)

/-- `Runner.Run`: an implicit `Reset` when never reset, transient-flag
clearing, the hand-off to the external statement executor (`exec` covers
`fillExpandConfig`, the node switch and the implied shell exit), then the
reconciliation.  `reset` and `exec` are the external parts, quantified over
in the theorems. -/
def runnerRun (reset exec : RState → RState) (s : RState) : RState × Option GoErr :=
  let s := if s.didReset then s else reset s
  runFinish (exec (clearTransient s))

/-! ### Concrete sample data used by the claim witnesses -/

/-- A runner state that has already been reset, with an empty environment. -/
def rsW : RState :=
  { didReset := true, fatalErr := none, nonFatalHandlerErr := none, returning := false,
    exiting := false, filename := "", exit := 0, lastExit := 0, vars := fun _ => none,
    envW := { layers := fun _ => [], nextId := 0 }, env := { chain := [], base := fun _ => none } }

/-- A statement executor that terminates with exit status 3. -/
def execW : RState → RState := fun t => { t with exit := 3 }

/-- A host filesystem where `/bin/foo` exists without execute permission and
nothing else exists. -/
def hostNoExec : HostFS := fun p => if p = "/bin/foo" then some ⟨false, 0o644⟩ else none

/-- A host filesystem where `/bin/foo` is an executable regular file. -/
def hostExec : HostFS := fun p => if p = "/bin/foo" then some ⟨false, 0o755⟩ else none

/-- A host filesystem where nothing exists. -/
def hostEmpty : HostFS := fun _ => none

/-- A virtual filesystem containing an executable regular file `bin/foo`. -/
def vfsSample : MDir :=
  .mk ⟨".", 0x100, 0o777 ||| modeDir⟩
    [("bin", .mk ⟨"bin", 0x100, 0o777 ||| modeDir⟩ [] [("foo", ⟨⟨"foo", 0, 0o755⟩, [], true, true⟩)])]
    []

/-- A world whose host has `/bin/foo` executable. -/
def worldHit : World := ⟨hostExec, vfsSample⟩

/-- A world with the same virtual filesystem but an empty host. -/
def worldMiss : World := ⟨hostEmpty, vfsSample⟩

/-- A parent store with one layer holding `X`. -/
def envWW : EnvWorld := { layers := fun i => if i = 0 then [("X", ⟨true, false, "1"⟩)] else [], nextId := 1 }

/-- A parent overlay environment reading that single layer. -/
def oenvW : OEnv := { chain := [0], base := fun _ => none }

/-- A base environment where `IFS` is already set (to `X`). -/
def ifsBase : String → Option Variable := fun k => if k = "IFS" then some ⟨true, false, "X"⟩ else none

/-- An empty layer store. -/
def envW0 : EnvWorld := { layers := fun _ => [], nextId := 0 }

/-- A root holding the populated directory `a` (containing the file `b`). -/
def popRoot : MDir :=
  .mk ⟨".", 0x100, 0o777 ||| modeDir⟩
    [("a", .mk ⟨"a", 0x100, 0o777 ||| modeDir⟩ [] [("b", ⟨⟨"b", 1, 0o644⟩, [42], true, true⟩)])]
    []

/-- A root with two children inserted in reverse name order. -/
def twoRoot : MDir :=
  .mk ⟨".", 0x100, 0o777 ||| modeDir⟩
    [("b", .mk ⟨"b", 0x100, 0o777 ||| modeDir⟩ [] [])]
    [("a", ⟨⟨"a", 0, 0o644⟩, [], true, true⟩)]

end Vsh

namespace Vsh

example : goPathClean "/" = "/" := by decide
example : goPathClean "./" = "." := by decide
example : goPathClean "a/../b//c/." = "b/c" := by decide
example : cleanse "/" = "" := by decide
example : cleanse "." = "" := by decide
example : cleanse "/a/b/" = "a/b" := by decide
example : goPathJoin "/bin" "foo" = "/bin/foo" := by decide
example : toParts (cleanse "/a/b") = ["a", "b"] := by decide

/-! ### Association-list map lemmas -/

theorem lookup_cons {α : Type} (k a : String) (b : α) (rest : List (String × α)) :
    List.lookup k ((a, b) :: rest) = if k = a then some b else rest.lookup k := by
  by_cases h : k = a
  · simp [List.lookup, h]
  · have hb : (k == a) = false := beq_eq_false_iff_ne.mpr h
    simp [List.lookup, hb, h]

theorem delK_cons {α : Type} (a k : String) (b : α) (rest : List (String × α)) :
    delK ((a, b) :: rest) k = if a = k then delK rest k else (a, b) :: delK rest k := by
  by_cases h : a = k <;> simp [delK, h]

theorem replaceK_cons {α : Type} (a k : String) (b v : α) (rest : List (String × α)) :
    replaceK ((a, b) :: rest) k v =
      if a = k then (k, v) :: rest else (a, b) :: replaceK rest k v := by
  by_cases h : a = k <;> simp [replaceK, h]

theorem lookup_delK_self {α : Type} (l : List (String × α)) (k : String) :
    (delK l k).lookup k = none := by
  induction l with
  | nil => rfl
  | cons kv rest ih =>
    obtain ⟨a, b⟩ := kv
    rw [delK_cons]
    by_cases h : a = k
    · simpa [h] using ih
    · rw [if_neg h, lookup_cons, if_neg (Ne.symm h)]
      exact ih

theorem lookup_delK_ne {α : Type} (l : List (String × α)) (k k' : String)
    (h : k' ≠ k) : (delK l k).lookup k' = l.lookup k' := by
  induction l with
  | nil => rfl
  | cons kv rest ih =>
    obtain ⟨a, b⟩ := kv
    rw [delK_cons, lookup_cons]
    by_cases hk : a = k
    · rw [if_pos hk, if_neg (fun he => h (he.trans hk))]
      exact ih
    · rw [if_neg hk, lookup_cons]
      by_cases hk' : k' = a
      · rw [if_pos hk', if_pos hk']
      · rw [if_neg hk', if_neg hk']
        exact ih

theorem lookup_replaceK_self {α : Type} (l : List (String × α)) (k : String) (v : α)
    (h : (l.lookup k).isSome) : (replaceK l k v).lookup k = some v := by
  induction l with
  | nil => simp [List.lookup] at h
  | cons kv rest ih =>
    obtain ⟨a, b⟩ := kv
    rw [replaceK_cons]
    by_cases hk : a = k
    · rw [if_pos hk, lookup_cons, if_pos rfl]
    · rw [if_neg hk, lookup_cons, if_neg (Ne.symm hk)]
      rw [lookup_cons, if_neg (Ne.symm hk)] at h
      exact ih h

theorem lookup_replaceK_ne {α : Type} (l : List (String × α)) (k k' : String) (v : α)
    (h : k' ≠ k) : (replaceK l k v).lookup k' = l.lookup k' := by
  induction l with
  | nil => rfl
  | cons kv rest ih =>
    obtain ⟨a, b⟩ := kv
    rw [replaceK_cons]
    by_cases hk : a = k
    · rw [if_pos hk, lookup_cons, if_neg h, lookup_cons, if_neg (hk ▸ h)]
    · rw [if_neg hk, lookup_cons, lookup_cons]
      by_cases hk' : k' = a
      · rw [if_pos hk', if_pos hk']
      · rw [if_neg hk', if_neg hk']
        exact ih

theorem replaceK_self_eq {α : Type} (l : List (String × α)) (k : String) (v : α)
    (h : l.lookup k = some v) : replaceK l k v = l := by
  induction l with
  | nil => rfl
  | cons kv rest ih =>
    obtain ⟨a, b⟩ := kv
    rw [replaceK_cons]
    by_cases hk : a = k
    · rw [lookup_cons, if_pos (Eq.symm hk)] at h
      rw [if_pos hk, hk]
      injection h with h
      rw [h]
    · rw [lookup_cons, if_neg (Ne.symm hk)] at h
      rw [if_neg hk, ih h]

theorem lookup_append_none {α : Type} (l l₂ : List (String × α)) (k : String)
    (h : l.lookup k = none) : (l ++ l₂).lookup k = l₂.lookup k := by
  induction l with
  | nil => rfl
  | cons kv rest ih =>
    obtain ⟨a, b⟩ := kv
    rw [lookup_cons] at h
    by_cases hk : k = a
    · rw [if_pos hk] at h; exact absurd h (by simp)
    · rw [if_neg hk] at h
      rw [List.cons_append, lookup_cons, if_neg hk]
      exact ih h

theorem lookup_setK_self {α : Type} (l : List (String × α)) (k : String) (v : α) :
    (setK l k v).lookup k = some v := by
  unfold setK
  by_cases h : (l.lookup k).isSome
  · rw [if_pos h]
    exact lookup_replaceK_self l k v h
  · rw [if_neg h]
    have hn : l.lookup k = none := by
      cases hl : l.lookup k with
      | none => rfl
      | some w => rw [hl] at h; simp at h
    rw [lookup_append_none l _ k hn, lookup_cons, if_pos rfl]

theorem lookup_setK_ne {α : Type} (l : List (String × α)) (k k' : String) (v : α)
    (h : k' ≠ k) : (setK l k v).lookup k' = l.lookup k' := by
  unfold setK
  by_cases hs : (l.lookup k).isSome
  · rw [if_pos hs]
    exact lookup_replaceK_ne l k k' v h
  · rw [if_neg hs]
    induction l with
    | nil =>
      have hb : (k' == k) = false := beq_eq_false_iff_ne.mpr h
      simp [List.lookup, hb]
    | cons kv rest ih =>
      obtain ⟨a, b⟩ := kv
      rw [List.cons_append, lookup_cons, lookup_cons]
      by_cases hk : k' = a
      · rw [if_pos hk, if_pos hk]
      · rw [if_neg hk, if_neg hk]
        refine ih ?_
        rw [lookup_cons] at hs
        by_cases hka : k = a
        · rw [if_pos hka] at hs; simp at hs
        · rwa [if_neg hka] at hs

theorem findSome?_ext {α β : Type} (f g : α → Option β) (l : List α)
    (h : ∀ a ∈ l, f a = g a) : l.findSome? f = l.findSome? g := by
  induction l with
  | nil => rfl
  | cons a rest ih =>
    have ha := h a (by simp)
    have hr : ∀ b ∈ rest, f b = g b := fun b hb => h b (by simp [hb])
    simp [List.findSome?, ha, ih hr]

theorem MDir.eta (d : MDir) : MDir.mk d.info d.dirs d.files = d := by
  cases d
  rfl

/-! ### Runner outcome reconciliation (claim C1) -/

theorem runFinish_spec (t : RState) :
    (runFinish t).1.vars = mergedVars t ∧
    (∀ e, t.fatalErr = some e → (runFinish t).2 = some e) ∧
    (∀ e, t.fatalErr = none → t.nonFatalHandlerErr = some e → (runFinish t).2 = some e) ∧
    (t.fatalErr = none → t.nonFatalHandlerErr = none → 0 < t.exit → t.exit < 256 →
      (runFinish t).2 = some (.exitStatus t.exit.toNat)) ∧
    (t.fatalErr = none → t.nonFatalHandlerErr = none → t.exit = 0 →
      (runFinish t).2 = none) := by
  refine ⟨?_, ?_, ?_, ?_, ?_⟩
  · rcases hf : t.fatalErr with _ | e
    · rcases hn : t.nonFatalHandlerErr with _ | e
      · by_cases h0 : t.exit = 0 <;> simp [runFinish, hf, hn, h0]
      · simp [runFinish, hf, hn]
    · simp [runFinish, hf]
  · intro e hf
    simp [runFinish, hf]
  · intro e hf hn
    simp [runFinish, hf, hn]
  · intro hf hn h1 h2
    have he : ¬ t.exit = 0 := by omega
    have hm : t.exit.emod 256 = t.exit := Int.emod_eq_of_lt (by omega) (by omega)
    simp [runFinish, hf, hn, he, hm]
  · intro hf hn h0
    simp [runFinish, hf, hn, h0]

/-- C1: for every `Run` call that completes, the outcome follows the strict
priority fatal error > non-fatal handler error > non-zero exit status (as a
typed `ExitStatus` carrying the numeric code) > success (`nil`), and the
overlay environment has been merged into the visible variable snapshot
before returning.  `s1` is the runner state the external statement executor
leaves behind. -/
theorem run_outcome_priority (reset exec : RState → RState) (s s1 : RState)
    (hs1 : s1 = exec (clearTransient (if s.didReset then s else reset s))) :
    (runnerRun reset exec s).1.vars = mergedVars s1 ∧
    (∀ e, s1.fatalErr = some e → (runnerRun reset exec s).2 = some e) ∧
    (∀ e, s1.fatalErr = none → s1.nonFatalHandlerErr = some e →
      (runnerRun reset exec s).2 = some e) ∧
    (s1.fatalErr = none → s1.nonFatalHandlerErr = none → 0 < s1.exit → s1.exit < 256 →
      (runnerRun reset exec s).2 = some (.exitStatus s1.exit.toNat)) ∧
    (s1.fatalErr = none → s1.nonFatalHandlerErr = none → s1.exit = 0 →
      (runnerRun reset exec s).2 = none) := by
  have h : runnerRun reset exec s = runFinish s1 := by rw [hs1]; rfl
  rw [h]
  exact runFinish_spec s1



theorem run_outcome_priority_witness :
    (runnerRun id execW rsW).2 = some (.exitStatus 3) := by
  have h := run_outcome_priority id execW rsW
    (execW (clearTransient (if rsW.didReset then rsW else id rsW))) rfl
  exact h.2.2.2.1 rfl rfl (by decide) (by decide)

/-! ### PATH lookup (claims C2 and C3) -/

theorem lookLoop_allMiss (host : HostFS) (cwd file : String) (l : List String)
    (h : ∀ elem ∈ l, ∃ e, checkStat host cwd (candidatePath elem file) = .error e) :
    lookLoop host cwd file l = .error (.notFoundInPath file) := by
  induction l with
  | nil => rfl
  | cons elem rest ih =>
    obtain ⟨e, he⟩ := h elem (by simp)
    have hr := ih (fun x hx => h x (by simp [hx]))
    simp [lookLoop, he, hr]

/-- C2: a PATH candidate that stats to a directory or to an entry with no
execute-permission bit is a miss — `checkStat` rejects it and `lookLoop`
continues with the remaining entries — and when every PATH entry misses,
the lookup fails with the command-not-found error naming the requested
command (by construction not a permission error). -/
theorem lookPath_miss_and_notfound (host : HostFS) (cwd pathVar file : String) :
    (∀ c m, host (resolveCand cwd c) = some m → m.isDir = true →
      checkStat host cwd c = .error .isADirectory) ∧
    (∀ c m, host (resolveCand cwd c) = some m → m.isDir = false → m.perm &&& 0o111 = 0 →
      checkStat host cwd c = .error .permissionDenied) ∧
    (∀ elem rest e, checkStat host cwd (candidatePath elem file) = .error e →
      lookLoop host cwd file (elem :: rest) = lookLoop host cwd file rest) ∧
    ((∀ elem ∈ pathListOf pathVar, ∃ e, checkStat host cwd (candidatePath elem file) = .error e) →
      lookPathDir host cwd pathVar file = .error (.notFoundInPath file)) := by
  refine ⟨?_, ?_, ?_, ?_⟩
  · intro c m hm hd
    simp [checkStat, hm, hd]
  · intro c m hm hd hp
    simp [checkStat, hm, hd, hp]
  · intro elem rest e he
    simp [lookLoop, he]
  · intro h
    exact lookLoop_allMiss host cwd file _ h


theorem lookPath_miss_and_notfound_witness :
    lookPathDir hostNoExec "/" "/bin" "foo" = .error (.notFoundInPath "foo") := by
  refine (lookPath_miss_and_notfound hostNoExec "/" "/bin" "foo").2.2.2 ?_
  intro elem hmem
  have hl : pathListOf "/bin" = ["/bin"] := by decide
  rw [hl] at hmem
  have he : elem = "/bin" := by simpa using hmem
  subst he
  exact ⟨.permissionDenied, rfl⟩






/-- C3 counterexample: two worlds with byte-identical virtual filesystems
but different host filesystems give different PATH-lookup results, so a
candidate's hit or miss does not depend only on the virtual filesystem's
contents — `checkStat` stats through `os.Stat` on the host, not through the
Runner's VFS handle. -/
theorem lookPath_ignores_vfs_cex :
    worldHit.vfs = worldMiss.vfs ∧
    lookPathDirW worldHit "/" "/bin" "foo" = .ok "/bin/foo" ∧
    lookPathDirW worldMiss "/" "/bin" "foo" = .error (.notFoundInPath "foo") :=
  ⟨rfl, rfl, rfl⟩

/-- C3 amended: every candidate (`./name` for an empty or `.` entry,
otherwise `entry/name`, resolved against the current directory unless
absolute) is stat'ed via `os.Stat` against the host filesystem, so the
lookup result depends only on the host filesystem contents, not on the
Runner's virtual filesystem. -/
theorem lookPath_host_only (w1 w2 : World) (cwd pathVar file : String)
    (hh : w1.host = w2.host) :
    lookPathDirW w1 cwd pathVar file = lookPathDirW w2 cwd pathVar file ∧
    (∀ elem rest, lookLoop w1.host cwd file (elem :: rest) =
      match checkStat w1.host cwd (candidatePath elem file) with
      | .ok f => .ok f
      | .error _ => lookLoop w1.host cwd file rest) := by
  constructor
  · unfold lookPathDirW
    rw [hh]
  · intro elem rest
    rfl

theorem lookPath_host_only_witness :
    lookPathDirW worldHit "/" "/bin" "foo" =
      lookPathDirW { host := hostExec, vfs := newMemFS } "/" "/bin" "foo" :=
  (lookPath_host_only worldHit { host := hostExec, vfs := newMemFS } "/" "/bin" "foo" rfl).1

/-! ### Environment overlay (claims C4 and C8) -/

theorem envGet_layers_congr (L w : EnvWorld) (e : OEnv) (k : String)
    (hL : ∀ id ∈ e.chain, (L.layers id).lookup k = (w.layers id).lookup k) :
    envGet L e k = envGet w e k := by
  unfold envGet
  rw [findSome?_ext (fun id => (L.layers id).lookup k) (fun id => (w.layers id).lookup k)
    e.chain hL]

theorem envGet_envSet_ne (w : EnvWorld) (e : OEnv) (k k' : String) (v : Variable)
    (h : k' ≠ k) : envGet (envSet w e k v) e k' = envGet w e k' := by
  cases hc : e.chain with
  | nil => unfold envSet; rw [hc]
  | cons id tl =>
    refine envGet_layers_congr _ w e k' ?_
    intro a _
    unfold envSet
    rw [hc]
    dsimp only
    by_cases hai : a = id
    · rw [if_pos hai, hai]
      exact lookup_setK_ne _ k k' v h
    · rw [if_neg hai]

theorem envGet_envSet_self (w : EnvWorld) (e : OEnv) (k : String) (v : Variable)
    (id : Nat) (tl : List Nat) (hc : e.chain = id :: tl) :
    envGet (envSet w e k v) e k = some v := by
  unfold envGet envSet
  rw [hc]
  simp [List.findSome?, lookup_setK_self]

theorem envGet_fresh (w : EnvWorld) (base : String → Option Variable) (k : String) :
    envGet (newOverlayEnviron w ⟨[], base⟩).1 (newOverlayEnviron w ⟨[], base⟩).2 k = base k := by
  unfold envGet newOverlayEnviron
  simp [List.findSome?, List.lookup]

/-- C4: a variable write performed inside a subshell forked from a runner
lands in the subshell's fresh overlay layer and is never visible to the
parent's environment lookup, while the subshell's initial view of every
variable equals the parent's view at the moment of the fork (so anything
set in the parent before forking is visible inside). -/
theorem subshell_isolation (w : EnvWorld) (r : OEnv) (hv : chainBelow w r)
    (v name : String) (val : Variable) :
    envGet (envSet (subshellEnv w r).1 (subshellEnv w r).2 v val) r name = envGet w r name ∧
    envGet (subshellEnv w r).1 (subshellEnv w r).2 name = envGet w r name := by
  have hne : ∀ id ∈ r.chain, id ≠ w.nextId := fun id hid => Nat.ne_of_lt (hv id hid)
  constructor
  · refine envGet_layers_congr _ w r name ?_
    intro a ha
    have h1 : a ≠ w.nextId := hne a ha
    simp only [subshellEnv, newOverlayEnviron, envSet]
    simp only [if_neg h1]
  · show envGet (subshellEnv w r).1 ⟨w.nextId :: r.chain, r.base⟩ name = envGet w r name
    unfold envGet
    simp only [subshellEnv, newOverlayEnviron, List.findSome?, if_pos rfl, List.lookup]
    have hx : ∀ a ∈ r.chain,
        ((if a = w.nextId then ([] : List (String × Variable)) else w.layers a).lookup name)
          = (w.layers a).lookup name := by
      intro a ha
      rw [if_neg (hne a ha)]
    rw [findSome?_ext _ _ r.chain hx]



theorem subshell_isolation_witness :
    envGet (envSet (subshellEnv envWW oenvW).1 (subshellEnv envWW oenvW).2 "X"
        ⟨true, false, "2"⟩) oenvW "X" = envGet envWW oenvW "X" ∧
    envGet (subshellEnv envWW oenvW).1 (subshellEnv envWW oenvW).2 "X" = envGet envWW oenvW "X" :=
  subshell_isolation envWW oenvW
    (by
      intro id hid
      have h0 : id = 0 := by simpa [oenvW] using hid
      subst h0
      decide)
    "X" "X" ⟨true, false, "2"⟩



/-- C8 counterexample: `IFS` is present in the inherited base environment,
yet after the first `Reset` the visible value is the default whitespace
set, not the base's value — `Reset` writes `PWD`, `IFS` and `OPTIND`
unconditionally, so a base value is not left in effect for them. -/
theorem reset_seed_ifs_overwritten :
    isSetVar (ifsBase "IFS") = true ∧
    envGet (resetSeedEnv envW0 ifsBase "/").1 (resetSeedEnv envW0 ifsBase "/").2 "IFS" =
      some ⟨true, false, " \t\n"⟩ ∧
    (some (⟨true, false, " \t\n"⟩ : Variable) ≠ ifsBase "IFS") := by
  refine ⟨rfl, by decide, by decide⟩

theorem envGet_if_set_ne (w' : EnvWorld) (e : OEnv) (c : Bool) (nm target : String)
    (vv : Variable) (h : target ≠ nm) :
    envGet (if c then w' else envSet w' e nm vv) e target = envGet w' e target := by
  cases c
  · simpa using envGet_envSet_ne w' e nm target vv h
  · simp

theorem envGet_envSet_fresh_self (w wx : EnvWorld) (base : String → Option Variable)
    (k : String) (v : Variable) :
    envGet (envSet wx (newOverlayEnviron w ⟨[], base⟩).2 k v)
      (newOverlayEnviron w ⟨[], base⟩).2 k = some v :=
  envGet_envSet_self wx _ k v w.nextId [] rfl

/-- C8 amended: on the first `Reset`, `HOME`, `UID`, `EUID` and `GID` are
seeded only when not already set in the inherited base (a base value is
left in effect), while `PWD`, `IFS` and `OPTIND` are written
unconditionally — `PWD` mirroring the current directory, `IFS` the default
whitespace set, `OPTIND` the string `1` — overriding any base value. -/
theorem reset_seed_spec (w : EnvWorld) (base : String → Option Variable) (dir : String) :
    (isSetVar (base "HOME") = true →
      envGet (resetSeedEnv w base dir).1 (resetSeedEnv w base dir).2 "HOME" = base "HOME") ∧
    (isSetVar (base "HOME") = false →
      envGet (resetSeedEnv w base dir).1 (resetSeedEnv w base dir).2 "HOME" =
        some ⟨true, false, "/"⟩) ∧
    (isSetVar (base "UID") = true →
      envGet (resetSeedEnv w base dir).1 (resetSeedEnv w base dir).2 "UID" = base "UID") ∧
    (isSetVar (base "UID") = false →
      envGet (resetSeedEnv w base dir).1 (resetSeedEnv w base dir).2 "UID" =
        some ⟨true, true, "0"⟩) ∧
    (isSetVar (base "EUID") = true →
      envGet (resetSeedEnv w base dir).1 (resetSeedEnv w base dir).2 "EUID" = base "EUID") ∧
    (isSetVar (base "EUID") = false →
      envGet (resetSeedEnv w base dir).1 (resetSeedEnv w base dir).2 "EUID" =
        some ⟨true, true, "0"⟩) ∧
    (isSetVar (base "GID") = true →
      envGet (resetSeedEnv w base dir).1 (resetSeedEnv w base dir).2 "GID" = base "GID") ∧
    (isSetVar (base "GID") = false →
      envGet (resetSeedEnv w base dir).1 (resetSeedEnv w base dir).2 "GID" =
        some ⟨true, true, "0"⟩) ∧
    envGet (resetSeedEnv w base dir).1 (resetSeedEnv w base dir).2 "PWD" =
      some ⟨true, false, dir⟩ ∧
    envGet (resetSeedEnv w base dir).1 (resetSeedEnv w base dir).2 "IFS" =
      some ⟨true, false, " \t\n"⟩ ∧
    envGet (resetSeedEnv w base dir).1 (resetSeedEnv w base dir).2 "OPTIND" =
      some ⟨true, false, "1"⟩ := by
  refine ⟨?_, ?_, ?_, ?_, ?_, ?_, ?_, ?_, ?_, ?_, ?_⟩
  · intro hset
    simp +decide [resetSeedEnv, envGet_envSet_ne, envGet_if_set_ne,
      envGet_envSet_fresh_self, envGet_fresh, hset]
  · intro hset
    simp +decide [resetSeedEnv, envGet_envSet_ne, envGet_if_set_ne,
      envGet_envSet_fresh_self, envGet_fresh, hset]
  · intro hset
    simp +decide [resetSeedEnv, envGet_envSet_ne, envGet_if_set_ne,
      envGet_envSet_fresh_self, envGet_fresh, hset]
  · intro hset
    simp +decide [resetSeedEnv, envGet_envSet_ne, envGet_if_set_ne,
      envGet_envSet_fresh_self, envGet_fresh, hset]
  · intro hset
    simp +decide [resetSeedEnv, envGet_envSet_ne, envGet_if_set_ne,
      envGet_envSet_fresh_self, envGet_fresh, hset]
  · intro hset
    simp +decide [resetSeedEnv, envGet_envSet_ne, envGet_if_set_ne,
      envGet_envSet_fresh_self, envGet_fresh, hset]
  · intro hset
    simp +decide [resetSeedEnv, envGet_envSet_ne, envGet_if_set_ne,
      envGet_envSet_fresh_self, envGet_fresh, hset]
  · intro hset
    simp +decide [resetSeedEnv, envGet_envSet_ne, envGet_if_set_ne,
      envGet_envSet_fresh_self, envGet_fresh, hset]
  · simp +decide [resetSeedEnv, envGet_envSet_ne, envGet_if_set_ne,
      envGet_envSet_fresh_self, envGet_fresh]
  · simp +decide [resetSeedEnv, envGet_envSet_ne, envGet_if_set_ne,
      envGet_envSet_fresh_self, envGet_fresh]
  · simp +decide [resetSeedEnv, envGet_envSet_ne, envGet_if_set_ne,
      envGet_envSet_fresh_self, envGet_fresh]

theorem reset_seed_spec_witness :
    envGet (resetSeedEnv envW0 ifsBase "/").1 (resetSeedEnv envW0 ifsBase "/").2 "HOME" =
      some ⟨true, false, "/"⟩ :=
  (reset_seed_spec envW0 ifsBase "/").2.1 rfl

/-! ### In-memory filesystem lemmas (claims C5, C6, C7, C9, C10) -/

theorem chSplit_ne_nil (sep : Char) (l : List Char) : chSplit sep l ≠ [] := by
  cases l with
  | nil => simp [chSplit]
  | cons c rest =>
    unfold chSplit
    by_cases h : c = sep
    · simp [h]
    · rcases hr : chSplit sep rest with _ | ⟨g, gs⟩ <;> simp [h, hr]

theorem goSplit_ne_nil (s : String) (c : Char) : goSplit s c ≠ [] := by
  unfold goSplit
  intro h
  exact chSplit_ne_nil c s.toList (List.map_eq_nil_iff.mp h)

theorem cleanse_ne_dot (p : String) : cleanse p ≠ "." := by
  by_cases hc : goTrimStart (goTrimStart (goPathClean p) "./") "/" = "."
  · simp [cleanse, hc]
  · simp [cleanse, hc]

theorem getDir_cons (d : MDir) (p : String) (rest : List String) :
    d.getDir (p :: rest) =
      match d.dirs.lookup p with
      | some sub => sub.getDir rest
      | none => none := rfl

theorem getFile_single (d : MDir) (p : String) : d.getFile [p] = d.files.lookup p := rfl

theorem getFile_cons (d : MDir) (p q : String) (rest' : List String) :
    d.getFile (p :: q :: rest') =
      match d.dirs.lookup p with
      | some sub => sub.getFile (q :: rest')
      | none => none := rfl

theorem dirs_mk (i : FInfo) (ds : List (String × MDir)) (fs : List (String × MFile)) :
    (MDir.mk i ds fs).dirs = ds := rfl

theorem files_mk (i : FInfo) (ds : List (String × MDir)) (fs : List (String × MFile)) :
    (MDir.mk i ds fs).files = fs := rfl

theorem info_mk (i : FInfo) (ds : List (String × MDir)) (fs : List (String × MFile)) :
    (MDir.mk i ds fs).info = i := rfl

theorem removePath_single (d : MDir) (p : String) (recursive : Bool) :
    d.removePath [p] recursive =
      if (d.files.lookup p).isSome then (MDir.mk d.info d.dirs (delK d.files p), none)
      else
        match d.dirs.lookup p with
        | some sub =>
          if sub.dirs.isEmpty && sub.files.isEmpty then
            (MDir.mk d.info (delK d.dirs p) d.files, none)
          else if recursive then (MDir.mk d.info (delK d.dirs p) d.files, none)
          else (d, some .invalid)
        | none => (d, some .notExist) := rfl

theorem removePath_cons (d : MDir) (p q : String) (rest' : List String) (recursive : Bool) :
    d.removePath (p :: q :: rest') recursive =
      match d.dirs.lookup p with
      | some sub =>
        (MDir.mk d.info (setK d.dirs p (sub.removePath (q :: rest') recursive).1) d.files,
          (sub.removePath (q :: rest') recursive).2)
      | none => (d, some .notExist) := rfl

/-- C10: for every path that normalizes (through `cleanse`) to the empty
string — such as the empty path, `.`, `/` or `./` — both `Remove` and
`RemoveAll` on the in-memory filesystem return `nil` and leave the tree
completely unchanged; in particular `RemoveAll("/")` deletes nothing under
the root. -/
theorem remove_empty_path_noop (p : String) (h : cleanse p = "") (root : MDir) :
    memRemove root p = (root, none) ∧ memRemoveAll root p = (root, none) := by
  unfold memRemove memRemoveAll
  rw [h]
  simp

theorem remove_empty_path_noop_witness :
    memRemove vfsSample "/" = (vfsSample, none) ∧
      memRemoveAll vfsSample "/" = (vfsSample, none) :=
  remove_empty_path_noop "/" (by decide) vfsSample

theorem removePath_all_of_getDir (parts : List String) (d sub : MDir)
    (hne : parts ≠ [])
    (hdir : d.getDir parts = some sub)
    (hfile : d.getFile parts = none) :
    ∃ d', d.removePath parts true = (d', none) ∧
      d'.getDir parts = none ∧ d'.getFile parts = none := by
  induction parts generalizing d with
  | nil => exact absurd rfl hne
  | cons p rest ih =>
    cases hd : d.dirs.lookup p with
    | none =>
      exfalso
      cases rest <;> simp [MDir.getDir, hd] at hdir
    | some mid =>
      cases rest with
      | nil =>
        have hsub : mid = sub := by simpa [MDir.getDir, hd] using hdir
        subst hsub
        have hf : d.files.lookup p = none := by simpa [MDir.getFile] using hfile
        refine ⟨.mk d.info (delK d.dirs p) d.files, ?_, ?_, ?_⟩
        · rw [removePath_single, hf]
          simp only [Option.isSome_none, Bool.false_eq_true, if_false, hd]
          by_cases hcc : mid.dirs.isEmpty && mid.files.isEmpty <;> simp [hcc]
        · simp [MDir.getDir, MDir.dirs, lookup_delK_self]
        · simpa [MDir.getFile, MDir.files] using hf
      | cons q rest' =>
        have hmid : mid.getDir (q :: rest') = some sub := by
          simpa [MDir.getDir, hd] using hdir
        have hfmid : mid.getFile (q :: rest') = none := by
          simpa [MDir.getFile, hd] using hfile
        obtain ⟨mid', hrm, hgd, hgf⟩ := ih mid (by simp) hmid hfmid
        refine ⟨.mk d.info (setK d.dirs p mid') d.files, ?_, ?_, ?_⟩
        · simp only [removePath_cons, hd, hrm]
        · rw [getDir_cons, dirs_mk, lookup_setK_self]
          exact hgd
        · rw [getFile_cons, dirs_mk, lookup_setK_self]
          exact hgf

theorem removePath_invalid_of_populated (parts : List String) (d sub : MDir)
    (hne : parts ≠ [])
    (hdir : d.getDir parts = some sub)
    (hpop : (sub.dirs.isEmpty && sub.files.isEmpty) = false)
    (hfile : d.getFile parts = none) :
    d.removePath parts false = (d, some .invalid) := by
  induction parts generalizing d with
  | nil => exact absurd rfl hne
  | cons p rest ih =>
    cases hd : d.dirs.lookup p with
    | none =>
      exfalso
      cases rest <;> simp [MDir.getDir, hd] at hdir
    | some mid =>
      cases rest with
      | nil =>
        have hsub : mid = sub := by simpa [MDir.getDir, hd] using hdir
        subst hsub
        have hf : d.files.lookup p = none := by simpa [MDir.getFile] using hfile
        rw [removePath_single, hf]
        simp [hd, hpop]
      | cons q rest' =>
        have hmid : mid.getDir (q :: rest') = some sub := by
          simpa [MDir.getDir, hd] using hdir
        have hfmid : mid.getFile (q :: rest') = none := by
          simpa [MDir.getFile, hd] using hfile
        have hrec := ih mid (by simp) hmid hfmid
        have hset : setK d.dirs p mid = d.dirs := by
          unfold setK
          rw [if_pos (by simp [hd])]
          exact replaceK_self_eq d.dirs p mid hd
        simp only [removePath_cons, hd, hrec, hset]
        rw [MDir.eta]

theorem memStat_notExist (root : MDir) (p : String)
    (hf : root.getFile (toParts (cleanse p)) = none)
    (hd : root.getDir (toParts (cleanse p)) = none) :
    memStat root p = .error (.pathError "stat" (cleanse p) .notExist) := by
  simp [memStat, hf, hd]

/-- C5: for a populated (non-empty) directory of the in-memory filesystem
(reached purely through directories and not at the root), `RemoveAll` on
its path succeeds and a subsequent `Stat` of the path reports `NotExist`,
while the non-recursive `Remove` on the same path returns `Invalid` and
leaves the entire tree byte-for-byte unchanged. -/
theorem remove_populated_dir_spec (root sub : MDir) (p : String)
    (hne : cleanse p ≠ "")
    (hdir : root.getDir (toParts (cleanse p)) = some sub)
    (hpop : sub.dirs ≠ [] ∨ sub.files ≠ [])
    (hfile : root.getFile (toParts (cleanse p)) = none) :
    ∃ root', memRemoveAll root p = (root', none) ∧
      memStat root' p = .error (.pathError "stat" (cleanse p) .notExist) ∧
      memRemove root p = (root, some .invalid) := by
  have hdot : cleanse p ≠ "." := cleanse_ne_dot p
  have hparts : toParts (cleanse p) ≠ [] := by
    unfold toParts
    rw [if_neg hne]
    exact goSplit_ne_nil _ _
  have hpop' : (sub.dirs.isEmpty && sub.files.isEmpty) = false := by
    rcases hpop with h | h <;> simp [List.isEmpty_iff, h]
  obtain ⟨d', h1, h2, h3⟩ := removePath_all_of_getDir _ root sub hparts hdir hfile
  refine ⟨d', ?_, memStat_notExist d' p h3 h2, ?_⟩
  · simp [memRemoveAll, hne, hdot, h1]
  · have h4 := removePath_invalid_of_populated _ root sub hparts hdir hpop' hfile
    simp [memRemove, hne, hdot, h4]


theorem remove_populated_dir_spec_witness :
    ∃ root', memRemoveAll popRoot "/a" = (root', none) ∧
      memStat root' "/a" = .error (.pathError "stat" (cleanse "/a") .notExist) ∧
      memRemove popRoot "/a" = (popRoot, some .invalid) :=
  remove_populated_dir_spec popRoot
    (.mk ⟨"a", 0x100, 0o777 ||| modeDir⟩ [] [("b", ⟨⟨"b", 1, 0o644⟩, [42], true, true⟩)])
    "/a" (by decide) rfl (Or.inr (by decide)) rfl

/-! ### `MkdirAll` (claim C6) -/

theorem mkdirAll_nil (d : MDir) (perm : Nat) : d.mkdirAll [] perm = (d, none) := rfl

theorem mkdirAll_cons (d : MDir) (p : String) (rest : List String) (perm : Nat) :
    d.mkdirAll (p :: rest) perm =
      if (d.files.lookup p).isSome then (d, some .exist)
      else
        let perm' := if perm.testBit modeDirBit then perm else perm ||| modeDir
        let sub := (d.dirs.lookup p).getD (.mk ⟨p, 0x100, perm'⟩ [] [])
        let dirs0 :=
          match d.dirs.lookup p with
          | some _ => d.dirs
          | none => d.dirs ++ [(p, sub)]
        match rest with
        | [] => (MDir.mk d.info dirs0 d.files, none)
        | _ :: _ =>
          let r := sub.mkdirAll rest perm'
          (MDir.mk d.info (setK dirs0 p r.1) d.files, r.2) := rfl

theorem fileSeg_cons (d : MDir) (p : String) (rest : List String) :
    fileSeg d (p :: rest) =
      ((d.files.lookup p).isSome ||
        (match d.dirs.lookup p with
         | some sub => fileSeg sub rest
         | none => false)) := rfl

theorem fileSeg_fresh (i : FInfo) (parts : List String) :
    fileSeg (.mk i [] []) parts = false := by
  cases parts with
  | nil => rfl
  | cons p rest => rw [fileSeg_cons, files_mk, dirs_mk]; rfl

theorem setK_self_eq {α : Type} (l : List (String × α)) (k : String) (v : α)
    (h : l.lookup k = some v) : setK l k v = l := by
  unfold setK
  rw [if_pos (by simp [h])]
  exact replaceK_self_eq l k v h

theorem mkdirAll_err (parts : List String) (d : MDir) (perm : Nat) :
    (d.mkdirAll parts perm).2 = if fileSeg d parts then some .exist else none := by
  induction parts generalizing d perm with
  | nil => simp [mkdirAll_nil, fileSeg]
  | cons p rest ih =>
    by_cases hf : (d.files.lookup p).isSome
    · rw [mkdirAll_cons, if_pos hf, fileSeg_cons]
      simp [hf]
    · have hf' : (d.files.lookup p).isSome = false := Bool.eq_false_iff.mpr hf
      rw [mkdirAll_cons, if_neg hf, fileSeg_cons, hf']
      cases hd : d.dirs.lookup p with
      | some sub =>
        cases rest with
        | nil => simp [hd, fileSeg]
        | cons q rest' => simp [hd, ih]
      | none =>
        cases rest with
        | nil => simp [hd]
        | cons q rest' => simp [hd, ih, fileSeg_fresh]

theorem mkdirAll_noop (parts : List String) (d sub : MDir) (perm : Nat)
    (hgd : d.getDir parts = some sub)
    (hfs : fileSeg d parts = false) :
    d.mkdirAll parts perm = (d, none) := by
  induction parts generalizing d perm with
  | nil => rfl
  | cons p rest ih =>
    cases hd : d.dirs.lookup p with
    | none => simp [getDir_cons, hd] at hgd
    | some mid =>
      have hgd' : mid.getDir rest = some sub := by simpa [getDir_cons, hd] using hgd
      rw [fileSeg_cons, hd] at hfs
      obtain ⟨hf', hfs'⟩ := Bool.or_eq_false_iff.mp hfs
      have hf : ¬ (d.files.lookup p).isSome := by
        intro hc
        rw [hf'] at hc
        exact Bool.false_ne_true hc
      rw [mkdirAll_cons, if_neg hf]
      cases rest with
      | nil => simp [hd, MDir.eta]
      | cons q rest' =>
        have hr := ih mid (if perm.testBit modeDirBit then perm else perm ||| modeDir)
          hgd' hfs'
        have hset : setK d.dirs p mid = d.dirs := setK_self_eq d.dirs p mid hd
        simp only [hd, Option.getD_some, hr]
        simp [hset, MDir.eta]

theorem mkdirAll_idem (parts : List String) (d d' : MDir) (perm : Nat)
    (h : d.mkdirAll parts perm = (d', none)) :
    d'.mkdirAll parts perm = (d', none) := by
  induction parts generalizing d d' perm with
  | nil =>
    rw [mkdirAll_nil] at h
    have h1 : d = d' := congrArg Prod.fst h
    rw [← h1]
    rfl
  | cons p rest ih =>
    by_cases hf : (d.files.lookup p).isSome
    · rw [mkdirAll_cons, if_pos hf] at h
      have h2 := congrArg Prod.snd h
      simp at h2
    · rw [mkdirAll_cons, if_neg hf] at h
      cases hd : d.dirs.lookup p with
      | some sub =>
        simp only [hd, Option.getD_some] at h
        cases rest with
        | nil =>
          have h1 : MDir.mk d.info d.dirs d.files = d' := congrArg Prod.fst h
          rw [MDir.eta] at h1
          subst h1
          rw [mkdirAll_cons, if_neg hf]
          simp [hd, MDir.eta]
        | cons q rest' =>
          rcases hrr : sub.mkdirAll (q :: rest')
              (if perm.testBit modeDirBit then perm else perm ||| modeDir) with ⟨r1, r2⟩
          rw [hrr] at h
          have h1 := congrArg Prod.fst h
          have h2 := congrArg Prod.snd h
          dsimp only at h1 h2
          subst h2
          have hidem := ih sub r1 _ hrr
          rw [← h1]
          rw [mkdirAll_cons]
          rw [files_mk, if_neg hf, dirs_mk]
          have hl : (setK d.dirs p r1).lookup p = some r1 := lookup_setK_self d.dirs p r1
          simp only [hl, Option.getD_some, info_mk, files_mk, hidem]
          rw [setK_self_eq _ _ _ hl]
      | none =>
        simp only [hd, Option.getD_none] at h
        cases rest with
        | nil =>
          have h1 : MDir.mk d.info
              (d.dirs ++ [(p, MDir.mk ⟨p, 0x100,
                if perm.testBit modeDirBit then perm else perm ||| modeDir⟩ [] [])])
              d.files = d' := congrArg Prod.fst h
          subst h1
          rw [mkdirAll_cons]
          rw [files_mk, if_neg hf, dirs_mk]
          have hl : (d.dirs ++ [(p, MDir.mk ⟨p, 0x100,
              if perm.testBit modeDirBit then perm else perm ||| modeDir⟩ [] [])]).lookup p
              = some (MDir.mk ⟨p, 0x100,
                if perm.testBit modeDirBit then perm else perm ||| modeDir⟩ [] []) := by
            rw [lookup_append_none _ _ _ hd, lookup_cons, if_pos rfl]
          simp only [hl, info_mk, files_mk]
        | cons q rest' =>
          rcases hrr : (MDir.mk ⟨p, 0x100,
              if perm.testBit modeDirBit then perm else perm ||| modeDir⟩ [] []).mkdirAll
              (q :: rest') (if perm.testBit modeDirBit then perm else perm ||| modeDir)
              with ⟨r1, r2⟩
          rw [hrr] at h
          have h1 := congrArg Prod.fst h
          have h2 := congrArg Prod.snd h
          dsimp only at h1 h2
          subst h2
          have hidem := ih _ r1 _ hrr
          rw [← h1]
          rw [mkdirAll_cons]
          rw [files_mk, if_neg hf, dirs_mk]
          have hl : (setK (d.dirs ++ [(p, MDir.mk ⟨p, 0x100,
              if perm.testBit modeDirBit then perm else perm ||| modeDir⟩ [] [])]) p r1).lookup p
              = some r1 := lookup_setK_self _ p r1
          simp only [hl, Option.getD_some, info_mk, files_mk, hidem]
          rw [setK_self_eq _ _ _ hl]

/-- C6: `MkdirAll` is idempotent — after a success, a second identical call
succeeds, changes nothing, and every directory listing is unchanged; it
fails (with `Exist`) exactly when a file occupies a required path segment;
and it succeeds silently, without touching the tree, when the target
directory already exists. -/
theorem mkdirAll_spec (root : MDir) (p : String) (perm : Nat) :
    (∀ root', memMkdirAll root p perm = (root', none) →
      memMkdirAll root' p perm = (root', none) ∧
      ∀ q, memReadDir (memMkdirAll root' p perm).1 q = memReadDir root' q) ∧
    ((memMkdirAll root p perm).2 ≠ none ↔ fileSeg root (toParts (cleanse p)) = true) ∧
    (∀ e, (memMkdirAll root p perm).2 = some e → e = .exist) ∧
    (∀ sub, root.getDir (toParts (cleanse p)) = some sub →
      fileSeg root (toParts (cleanse p)) = false →
      memMkdirAll root p perm = (root, none)) := by
  refine ⟨?_, ?_, ?_, ?_⟩
  · intro root' h
    have h2 := mkdirAll_idem _ root root' perm h
    refine ⟨h2, fun q => ?_⟩
    show memReadDir (root'.mkdirAll (toParts (cleanse p)) perm).1 q = memReadDir root' q
    rw [h2]
  · unfold memMkdirAll
    rw [mkdirAll_err]
    by_cases hfs : fileSeg root (toParts (cleanse p)) <;> simp [hfs]
  · intro e he
    unfold memMkdirAll at he
    rw [mkdirAll_err] at he
    by_cases hfs : fileSeg root (toParts (cleanse p))
    · rw [if_pos hfs] at he
      exact (Option.some.injEq .. ▸ he).symm
    · rw [if_neg hfs] at he
      exact absurd he (by simp)
  · intro sub hgd hfs
    exact mkdirAll_noop _ root sub perm hgd hfs

theorem mkdirAll_spec_witness :
    memMkdirAll popRoot "/a" 0o777 = (popRoot, none) :=
  (mkdirAll_spec popRoot "/a" 0o777).2.2.2
    (.mk ⟨"a", 0x100, 0o777 ||| modeDir⟩ [] [("b", ⟨⟨"b", 1, 0o644⟩, [42], true, true⟩)])
    rfl (by decide)

/-! ### `ReadDir` (claim C7) -/

theorem readDir_nil (d : MDir) : d.readDir [] = .ok d.entries := rfl

theorem readDir_cons (d : MDir) (p : String) (rest : List String) :
    d.readDir (p :: rest) =
      match d.dirs.lookup p with
      | some sub => sub.readDir rest
      | none => .error .notExist := rfl

theorem chLe_iff_not_lt (as bs : List Char) : chLe as bs = true ↔ ¬ bs < as := by
  induction as generalizing bs with
  | nil =>
    exact iff_of_true rfl (List.Lex.not_nil_right _ bs)
  | cons a as' ih =>
    cases bs with
    | nil =>
      refine iff_of_false (by simp [chLe]) ?_
      intro h
      exact h (List.nil_lt_cons a as')
    | cons b bs' =>
      by_cases hab : a = b
      · subst hab
        rw [chLe, if_pos rfl, ih bs']
        exact not_congr (List.Lex.cons_iff).symm
      · rw [chLe, if_neg hab]
        by_cases hlt : a < b
        · refine iff_of_true (decide_eq_true hlt) ?_
          intro h
          cases h with
          | cons h' => exact hab rfl
          | rel h' => exact absurd hlt (lt_asymm h')
        · have hba : b < a := by
            rcases lt_trichotomy a b with h | h | h
            · exact absurd h hlt
            · exact absurd h hab
            · exact h
          refine iff_of_false (by simp [hlt]) ?_
          intro h
          exact h (List.Lex.rel hba)

theorem entLe_iff (a b : FInfo) : entLe a b = true ↔ a.name ≤ b.name := by
  unfold entLe
  rw [chLe_iff_not_lt, not_lt, ← String.le_iff_toList_le]

theorem entLe_trans (a b c : FInfo) (h1 : entLe a b = true) (h2 : entLe b c = true) :
    entLe a c = true :=
  entLe_iff .. |>.mpr (le_trans (entLe_iff .. |>.mp h1) (entLe_iff .. |>.mp h2))

theorem entLe_total (a b : FInfo) : (entLe a b || entLe b a) = true := by
  rcases le_total a.name b.name with h | h
  · rw [Bool.or_eq_true]
    exact Or.inl ((entLe_iff ..).mpr h)
  · rw [Bool.or_eq_true]
    exact Or.inr ((entLe_iff ..).mpr h)

theorem insertSorted_perm (le : FInfo → FInfo → Bool) (a : FInfo) (l : List FInfo) :
    (insertSorted le a l).Perm (a :: l) := by
  induction l with
  | nil => exact List.Perm.refl _
  | cons b rest ih =>
    unfold insertSorted
    by_cases h : le a b
    · rw [if_pos h]
    · rw [if_neg h]
      exact (ih.cons b).trans (List.Perm.swap a b rest)

theorem sortEnts_perm (le : FInfo → FInfo → Bool) (l : List FInfo) :
    (sortEnts le l).Perm l := by
  induction l with
  | nil => exact List.Perm.refl _
  | cons a rest ih =>
    exact (insertSorted_perm le a (sortEnts le rest)).trans (ih.cons a)

theorem insertSorted_pairwise (le : FInfo → FInfo → Bool)
    (htrans : ∀ a b c, le a b = true → le b c = true → le a c = true)
    (htotal : ∀ a b, (le a b || le b a) = true)
    (a : FInfo) (l : List FInfo) (hl : l.Pairwise (fun x y => le x y = true)) :
    (insertSorted le a l).Pairwise (fun x y => le x y = true) := by
  induction l with
  | nil => simp [insertSorted]
  | cons b rest ih =>
    obtain ⟨hb, hrest⟩ := List.pairwise_cons.mp hl
    unfold insertSorted
    by_cases h : le a b
    · rw [if_pos h]
      refine List.pairwise_cons.mpr ⟨?_, hl⟩
      intro x hx
      rcases List.mem_cons.mp hx with hx | hx
      · rw [hx]; exact h
      · exact htrans a b x h (hb x hx)
    · rw [if_neg h]
      have hba : le b a = true := by
        rcases Bool.or_eq_true_iff.mp (htotal a b) with h1 | h1
        · exact absurd h1 h
        · exact h1
      refine List.pairwise_cons.mpr ⟨?_, ih hrest⟩
      intro x hx
      have hx' : x ∈ a :: rest := (insertSorted_perm le a rest).mem_iff.mp hx
      rcases List.mem_cons.mp hx' with hx' | hx'
      · rw [hx']; exact hba
      · exact hb x hx'

theorem sortEnts_pairwise (le : FInfo → FInfo → Bool)
    (htrans : ∀ a b c, le a b = true → le b c = true → le a c = true)
    (htotal : ∀ a b, (le a b || le b a) = true)
    (l : List FInfo) : (sortEnts le l).Pairwise (fun x y => le x y = true) := by
  induction l with
  | nil => simp [sortEnts]
  | cons a rest ih => exact insertSorted_pairwise le htrans htotal a _ ih

theorem entries_pairwise (d : MDir) : d.entries.Pairwise (fun a b => entLe a b = true) :=
  sortEnts_pairwise entLe entLe_trans entLe_total _

theorem entries_sorted (d : MDir) : (d.entries.map FInfo.name).Sorted (· ≤ ·) := by
  rw [List.Sorted, List.pairwise_map]
  refine (entries_pairwise d).imp ?_
  intro a b h
  exact (entLe_iff ..).mp h

theorem entries_perm (d : MDir) :
    d.entries.Perm
      (d.files.map (fun kv => kv.2.info) ++ d.dirs.map (fun kv => kv.2.info)) :=
  sortEnts_perm entLe _

theorem readDir_ok_entries (parts : List String) (d : MDir) (l : List FInfo)
    (h : d.readDir parts = .ok l) :
    ∃ sub, d.getDir parts = some sub ∧ l = sub.entries := by
  induction parts generalizing d with
  | nil =>
    refine ⟨d, rfl, ?_⟩
    rw [readDir_nil] at h
    exact (Except.ok.injEq .. ▸ h).symm
  | cons p rest ih =>
    rw [readDir_cons] at h
    cases hd : d.dirs.lookup p with
    | some sub =>
      rw [hd] at h
      obtain ⟨s2, hg, he⟩ := ih sub h
      exact ⟨s2, by simp [getDir_cons, hd, hg], he⟩
    | none =>
      rw [hd] at h
      cases h

theorem readDir_absent (parts : List String) (d : MDir)
    (h : d.getDir parts = none) : d.readDir parts = .error .notExist := by
  induction parts generalizing d with
  | nil => cases h
  | cons p rest ih =>
    rw [readDir_cons]
    cases hd : d.dirs.lookup p with
    | some sub =>
      have hsub : sub.getDir rest = none := by simpa [getDir_cons, hd] using h
      exact ih sub hsub
    | none => rfl

theorem sorted_perm_nodup_eq (l₁ l₂ : List FInfo) (hp : l₁.Perm l₂)
    (hs₁ : l₁.Pairwise (fun a b => entLe a b = true))
    (hs₂ : l₂.Pairwise (fun a b => entLe a b = true))
    (hn : (l₁.map FInfo.name).Nodup) : l₁ = l₂ := by
  haveI : IsAntisymm FInfo (fun a b => a.name < b.name) :=
    ⟨fun a b h1 h2 => absurd h2 (lt_asymm h1)⟩
  have hn₂ : (l₂.map FInfo.name).Nodup := (hp.map FInfo.name).nodup_iff.mp hn
  have strict : ∀ (l : List FInfo), l.Pairwise (fun a b => entLe a b = true) →
      (l.map FInfo.name).Nodup → l.Pairwise (fun a b => a.name < b.name) := by
    intro l hs hnd
    have hne : l.Pairwise (fun a b => a.name ≠ b.name) := by
      rw [List.Nodup, List.pairwise_map] at hnd
      exact hnd
    refine (hs.and hne).imp ?_
    intro a b hab
    exact lt_of_le_of_ne ((entLe_iff ..).mp hab.1) hab.2
  exact List.eq_of_perm_of_sorted hp (strict l₁ hs₁ hn) (strict l₂ hs₂ hn₂)

/-- C7: for every directory of the in-memory filesystem, `ReadDir` returns
the child entries sorted ascending by name; the sorted result is the same
for any insertion order of any mix of files and subdirectories (given
distinct names, as in a Go map); and `ReadDir` of an absent directory
returns `NotExist`. -/
theorem readDir_sorted_spec (root : MDir) (name : String) :
    (∀ l, memReadDir root name = .ok l →
      (l.map FInfo.name).Sorted (· ≤ ·) ∧
      ∃ sub, root.getDir (toParts (cleanse name)) = some sub ∧
        l.Perm (sub.files.map (fun kv => kv.2.info) ++ sub.dirs.map (fun kv => kv.2.info))) ∧
    (root.getDir (toParts (cleanse name)) = none →
      memReadDir root name = .error .notExist) ∧
    (∀ (i : FInfo) (ds ds' : List (String × MDir)) (fs fs' : List (String × MFile)),
      ds.Perm ds' → fs.Perm fs' →
      ((fs.map (fun kv => kv.2.info) ++ ds.map (fun kv => kv.2.info)).map FInfo.name).Nodup →
      MDir.entries (.mk i ds fs) = MDir.entries (.mk i ds' fs')) := by
  refine ⟨?_, ?_, ?_⟩
  · intro l h
    obtain ⟨sub, hg, he⟩ := readDir_ok_entries _ root l h
    subst he
    exact ⟨entries_sorted sub, sub, hg, entries_perm sub⟩
  · intro h
    exact readDir_absent _ root h
  · intro i ds ds' fs fs' hd hf hn
    have hp : (fs.map (fun kv => kv.2.info) ++ ds.map (fun kv => kv.2.info)).Perm
        (fs'.map (fun kv => kv.2.info) ++ ds'.map (fun kv => kv.2.info)) :=
      (hf.map _).append (hd.map _)
    have h₁ := sortEnts_perm entLe
      (fs.map (fun kv => kv.2.info) ++ ds.map (fun kv => kv.2.info))
    have h₂ := sortEnts_perm entLe
      (fs'.map (fun kv => kv.2.info) ++ ds'.map (fun kv => kv.2.info))
    have hperm : (MDir.entries (.mk i ds fs)).Perm (MDir.entries (.mk i ds' fs')) := by
      unfold MDir.entries
      rw [dirs_mk, files_mk, dirs_mk, files_mk]
      exact (h₁.trans hp).trans h₂.symm
    have hn₁ : ((MDir.entries (.mk i ds fs)).map FInfo.name).Nodup := by
      refine (List.Perm.nodup_iff ?_).mpr hn
      refine List.Perm.map FInfo.name ?_
      unfold MDir.entries
      rw [dirs_mk, files_mk]
      exact h₁
    exact sorted_perm_nodup_eq _ _ hperm (entries_pairwise _) (entries_pairwise _) hn₁


theorem readDir_sorted_spec_witness :
    (([⟨"a", 0, 0o644⟩, ⟨"b", 0x100, 0o777 ||| modeDir⟩] : List FInfo).map FInfo.name).Sorted
        (· ≤ ·) ∧
    ∃ sub, twoRoot.getDir (toParts (cleanse "")) = some sub ∧
      ([⟨"a", 0, 0o644⟩, ⟨"b", 0x100, 0o777 ||| modeDir⟩] : List FInfo).Perm
        (sub.files.map (fun kv => kv.2.info) ++ sub.dirs.map (fun kv => kv.2.info)) :=
  (readDir_sorted_spec twoRoot "").1 [⟨"a", 0, 0o644⟩, ⟨"b", 0x100, 0o777 ||| modeDir⟩] rfl

/-! ### Error surfacing (claim C9) -/

end Vsh
